import Mathlib

/- Verification development for the CineMatch content-based movie recommender
   (src/app.py). The recommendation pipeline of app.py is embedded shallowly:
   similarity scores are rationals, Python lists are Lean lists, Python dicts
   and HTTP responses are explicit data. The fuzzy title matching used by the
   app is difflib.get_close_matches; its matching kernel (SequenceMatcher with
   empty junk sets — the autojunk heuristic of difflib is inert whenever the
   second sequence, here the query, is shorter than 200 characters, which is
   the regime the theorems below cover) is embedded as well. -/

namespace CineMatch

/- Length of the common prefix of two character lists. A matching block of
   SequenceMatcher starting at positions (i, j) of sequences a and b has
   maximal size extLen (a.drop i) (b.drop j). -/
def extLen : List Char → List Char → Nat
  | [], _ => 0
  | _ :: _, [] => 0
  | x :: xs, y :: ys => if x = y then extLen xs ys + 1 else 0

/- All start positions (i, j) scanned by SequenceMatcher.find_longest_match,
   in scan order: i ascending, then j ascending. The difflib code scans end
   positions of blocks ascending and keeps the first block of each record
   size; equivalently, among the blocks of maximal size it returns the one
   whose start is earliest in a, then earliest in b, which is what scanning
   start positions with strict improvement computes. -/
def flmCands (a b : List Char) : List (Nat × Nat) :=
  (List.range a.length).flatMap fun i => (List.range b.length).map fun j => (i, j)

def flmStep (a b : List Char) (best : Nat × Nat × Nat) (ij : Nat × Nat) : Nat × Nat × Nat :=
  let k := extLen (a.drop ij.1) (b.drop ij.2)
  if best.2.2 < k then (ij.1, ij.2, k) else best

/- difflib SequenceMatcher.find_longest_match over the full ranges of a and b,
   with empty junk sets: the triple (besti, bestj, bestsize), initialized to
   (alo, blo, 0) = (0, 0, 0). With no junk the four extension loops of the
   Python code cannot extend a block of maximal size, so they are omitted. -/
def find_longest_match (a b : List Char) : Nat × Nat × Nat :=
  (flmCands a b).foldl (flmStep a b) (0, 0, 0)

/- Total number of matched characters (the sum M of the sizes of the matching
   blocks computed by SequenceMatcher.get_matching_blocks): the recursion of
   get_matching_blocks on the subwindows left and right of the longest match.
   The first argument is fuel; since each recursive call strictly shortens a,
   fuel a.length + 1 is always sufficient. -/
def matching_total : Nat → List Char → List Char → Nat
  | 0, _, _ => 0
  | fuel + 1, a, b =>
    let m := find_longest_match a b
    if m.2.2 = 0 then 0
    else
      matching_total fuel (a.take m.1) (b.take m.2.1) + m.2.2 +
        matching_total fuel (a.drop (m.1 + m.2.2)) (b.drop (m.2.1 + m.2.2))

/- Total matched characters between two strings, with sufficient fuel. -/
def matchTotal (a b : List Char) : Nat := matching_total (a.length + 1) a b

/- difflib SequenceMatcher.ratio between sequence a (a candidate) and
   sequence b (the query): 2*M/T where T is the sum of the lengths, and 1
   when both strings are empty (difflib _calculate_ratio returns 1.0 for
   total length 0). Scores are rationals in place of Python floats. -/
def ratioQ (a b : String) : ℚ :=
  if a.data.length + b.data.length = 0 then 1
  else (2 * matchTotal a.data b.data : ℚ) / (a.data.length + b.data.length)

/- Order in which heapq.nlargest ranks the scored candidates (score, title):
   Python compares such tuples lexicographically, so a candidate precedes
   another when its ratio is larger, or the ratios are equal and its title is
   lexicographically at least the other one (Python string comparison is by
   code points, which is exactly the order of the Mathlib String instance). -/
def pairGe (x y : ℚ × String) : Prop :=
  y.1 < x.1 ∨ (x.1 = y.1 ∧ y.2 ≤ x.2)

instance : DecidableRel pairGe := fun x y =>
  inferInstanceAs (Decidable (y.1 < x.1 ∨ (x.1 = y.1 ∧ y.2 ≤ x.2)))

/- difflib.get_close_matches word possibilities n cutoff: keep the candidates
   whose ratio against word clears the cutoff (the two quick ratios checked
   by the Python code are upper bounds of ratio, so the triple conjunction is
   equivalent to the final test ratio >= cutoff), pair each with its ratio,
   rank them with heapq.nlargest (equivalently: sort by the tuple order
   descending and take the first n; the tuple order is antisymmetric, so any
   sorting algorithm yields the same list), and strip the scores. -/
def get_close_matches (word : String) (possibilities : List String)
    (n : Nat) (cutoff : ℚ) : List String :=
  let result := (possibilities.filter fun x => decide (cutoff ≤ ratioQ x word)).map
    fun x => (ratioQ x word, x)
  ((List.insertionSort pairGe result).take n).map Prod.snd

/- Python list indexing l[i] (also numpy row extraction similarity[i]): a
   negative index counts from the end of the list; an index out of range on
   either side raises IndexError, modelled by none. -/
def pyNth (l : List α) (i : Int) : Option α :=
  let j : Int := if i < 0 then i + l.length else i
  if 0 ≤ j then l.get? j.toNat else none

/- Python enumerate over a list, from index 0 (list(enumerate(row))). -/
def enumerateFrom (n : Nat) : List α → List (Nat × α)
  | [] => []
  | a :: l => (n, a) :: enumerateFrom (n + 1) l

def pyEnumerate (l : List α) : List (Nat × α) := enumerateFrom 0 l

/- Order used by sorted(similarity_score, key=lambda x: x[1], reverse=True):
   stable descending sort on the score component. Insertion sort with the
   relation below is exactly that stable sort: an element is inserted before
   the first element whose score is not larger, so elements with equal scores
   keep their original relative order. -/
def scoreGe (x y : Nat × ℚ) : Prop := y.2 ≤ x.2

instance : DecidableRel scoreGe := fun x y => inferInstanceAs (Decidable (y.2 ≤ x.2))

/- sorted_similar_movies = sorted(list(enumerate(row)), key=lambda x: x[1],
   reverse=True) (app.py line 318-319). -/
def sorted_similar_movies (row : List ℚ) : List (Nat × ℚ) :=
  List.insertionSort scoreGe (pyEnumerate row)

/- The displayed recommendation pairs: sorted_similar_movies[1:topN+1]
   (app.py line 329), i.e. drop the first ranked entry and take the next
   topN. The self entry is dropped positionally, not by an identity check. -/
def recommendPairs (row : List ℚ) (topN : Nat) : List (Nat × ℚ) :=
  ((sorted_similar_movies row).drop 1).take topN

/- recommend itemIndex topN over a similarity matrix: extract the row
   similarity[itemIndex] (Python indexing, app.py line 318) and rank it.
   none models the IndexError raised for an out of range itemIndex. -/
def recommend (similarity : List (List ℚ)) (itemIndex : Int) (topN : Nat) :
    Option (List (Nat × ℚ)) :=
  (pyNth similarity itemIndex).map fun row => recommendPairs row topN

/- Title to index resolution (app.py line 317):
   movies_data[movies_data.title == close_match]["index"].values[0].
   The catalog is the list of (index column value, title) rows in load order;
   pandas keeps all rows whose title is exactly (case sensitively) equal and
   .values[0] takes the first, raising IndexError (none) when there is none. -/
def findIndexByTitle (rows : List (Nat × String)) (title : String) : Option Nat :=
  (((rows.filter fun r => r.2 == title).map Prod.fst).head?)

/- One movie record of a TMDB search response, with the optional fields the
   app reads (data["results"][0].get(...)). -/
structure TMDBMovie where
  poster_path : Option String
  vote_average : Option ℚ
  overview : Option String
  release_date : Option String
  popularity : Option ℚ

/- Body of a TMDB search response: the "results" list. -/
structure TMDBResponse where
  results : List TMDBMovie

/- Outcome of the HTTP request: Except.error covers every exception raised
   inside the try block of the Python code (network errors, timeouts,
   raise_for_status, JSON decoding, missing keys). -/
abbrev TMDBOutcome := Except String TMDBResponse

def noKeyPoster : String := "https://via.placeholder.com/300x450?text=No+API+Key"

def noPosterAvailable : String := "https://via.placeholder.com/300x450?text=No+Poster+Available"

def errorLoadingPoster : String := "https://via.placeholder.com/300x450?text=Error+Loading"

/- get_movie_poster (app.py lines 145-178): with no API key, return the
   No+API+Key placeholder without any request; on any exception return the
   Error+Loading placeholder; with an empty results list or a missing
   poster_path return the No+Poster+Available placeholder; otherwise the
   image URL. It always returns a URL and never raises. -/
def get_movie_poster (apiKey : String) (outcome : TMDBOutcome) : String :=
  if apiKey = "" then noKeyPoster
  else
    match outcome with
    | Except.error _ => errorLoadingPoster
    | Except.ok data =>
      match data.results with
      | [] => noPosterAvailable
      | m :: _ =>
        match m.poster_path with
        | some p => "https://image.tmdb.org/t/p/w500" ++ p
        | none => noPosterAvailable

/- The record get_movie_details builds from the first result (app.py lines
   201-208); each field keeps the raw optional value whose Python default
   (N/A, no overview text, Unknown, 0) is substituted at read time. -/
structure MovieDetails where
  rating : Option ℚ
  overview : Option String
  release_date : Option String
  popularity : Option ℚ

/- get_movie_details (app.py lines 182-213): none with no API key, none on
   any exception, none with an empty results list, otherwise the details of
   the first result. It never raises; absence is the value none. -/
def get_movie_details (apiKey : String) (outcome : TMDBOutcome) : Option MovieDetails :=
  if apiKey = "" then none
  else
    match outcome with
    | Except.error _ => none
    | Except.ok data =>
      match data.results with
      | [] => none
      | m :: _ => some ⟨m.vote_average, m.overview, m.release_date, m.popularity⟩

/- Auxiliary lemmas about the matching kernel. -/

theorem extLen_le_left : ∀ a b : List Char, extLen a b ≤ a.length
  | [], _ => Nat.le_refl 0
  | _ :: _, [] => Nat.zero_le _
  | x :: xs, y :: ys => by
    rw [extLen]
    split
    · exact Nat.succ_le_succ (extLen_le_left xs ys)
    · exact Nat.zero_le _

theorem extLen_le_right : ∀ a b : List Char, extLen a b ≤ b.length
  | [], _ => Nat.zero_le _
  | _ :: _, [] => Nat.le_refl 0
  | x :: xs, y :: ys => by
    rw [extLen]
    split
    · exact Nat.succ_le_succ (extLen_le_right xs ys)
    · exact Nat.zero_le _

theorem extLen_self : ∀ a : List Char, extLen a a = a.length
  | [] => rfl
  | x :: xs => by rw [extLen, if_pos rfl, extLen_self xs, List.length_cons]

/- The first extLen a b characters of a and b agree. -/
theorem extLen_take : ∀ (n : Nat) (a b : List Char), n ≤ extLen a b → a.take n = b.take n
  | 0, _, _, _ => by simp
  | n + 1, [], b, h => by rw [extLen] at h; omega
  | n + 1, _ :: _, [], h => by rw [extLen] at h; omega
  | n + 1, x :: xs, y :: ys, h => by
    rw [extLen] at h
    split at h
    · next hxy =>
      rw [List.take_succ_cons, List.take_succ_cons, hxy, extLen_take n xs ys (by omega)]
    · omega

/- Fold invariant: the running best triple is bounded by the extension length
   at its own start position (the initial triple has size 0). -/
theorem flmFold_le (a b : List Char) :
    ∀ (cands : List (Nat × Nat)) (init : Nat × Nat × Nat),
      init.2.2 ≤ extLen (a.drop init.1) (b.drop init.2.1) →
      (cands.foldl (flmStep a b) init).2.2 ≤
        extLen (a.drop (cands.foldl (flmStep a b) init).1)
          (b.drop (cands.foldl (flmStep a b) init).2.1)
  | [], init, h => h
  | ij :: rest, init, h => by
    rw [List.foldl_cons]
    refine flmFold_le a b rest (flmStep a b init ij) ?_
    rw [flmStep]
    split
    · exact Nat.le_refl _
    · exact h

theorem flm_le (a b : List Char) :
    (find_longest_match a b).2.2 ≤
      extLen (a.drop (find_longest_match a b).1) (b.drop (find_longest_match a b).2.1) :=
  flmFold_le a b (flmCands a b) (0, 0, 0) (Nat.zero_le _)

/- The best size only grows along the fold. -/
theorem flmFold_mono (a b : List Char) :
    ∀ (cands : List (Nat × Nat)) (init : Nat × Nat × Nat),
      init.2.2 ≤ (cands.foldl (flmStep a b) init).2.2
  | [], _ => Nat.le_refl _
  | ij :: rest, init => by
    rw [List.foldl_cons]
    refine Nat.le_trans ?_ (flmFold_mono a b rest (flmStep a b init ij))
    rw [flmStep]
    split
    · next hlt => exact Nat.le_of_lt hlt
    · exact Nat.le_refl _

/- The final best size dominates the extension length at every scanned pair. -/
theorem flmFold_ge_mem (a b : List Char) :
    ∀ (cands : List (Nat × Nat)) (init : Nat × Nat × Nat) (ij : Nat × Nat),
      ij ∈ cands →
      extLen (a.drop ij.1) (b.drop ij.2) ≤ (cands.foldl (flmStep a b) init).2.2
  | [], _, _, h => absurd h (List.not_mem_nil _)
  | c :: rest, init, ij, h => by
    rw [List.foldl_cons]
    rcases List.mem_cons.mp h with hc | hrest
    · subst hc
      refine Nat.le_trans ?_ (flmFold_mono a b rest (flmStep a b init ij))
      rw [flmStep]
      split
      · exact Nat.le_refl _
      · next hnlt => exact Nat.le_of_not_lt hnlt
    · exact flmFold_ge_mem a b rest (flmStep a b init c) ij hrest

theorem mem_flmCands {a b : List Char} {i j : Nat} :
    (i, j) ∈ flmCands a b ↔ i < a.length ∧ j < b.length := by
  simp [flmCands]

theorem flm_ge (a b : List Char) (i j : Nat) (hi : i < a.length) (hj : j < b.length) :
    extLen (a.drop i) (b.drop j) ≤ (find_longest_match a b).2.2 :=
  flmFold_ge_mem a b (flmCands a b) (0, 0, 0) (i, j) (mem_flmCands.mpr ⟨hi, hj⟩)

/- Position bounds of a nontrivial best block. -/
theorem flm_bounds (a b : List Char) (h : (find_longest_match a b).2.2 ≠ 0) :
    (find_longest_match a b).1 + (find_longest_match a b).2.2 ≤ a.length ∧
      (find_longest_match a b).2.1 + (find_longest_match a b).2.2 ≤ b.length := by
  have hle := flm_le a b
  have h1 := extLen_le_left (a.drop (find_longest_match a b).1)
    (b.drop (find_longest_match a b).2.1)
  have h2 := extLen_le_right (a.drop (find_longest_match a b).1)
    (b.drop (find_longest_match a b).2.1)
  rw [List.length_drop] at h1 h2
  omega

/- The best block really matches: the k characters of a from position i agree
   with the k characters of b from position j. -/
theorem flm_block_eq (a b : List Char) :
    (a.drop (find_longest_match a b).1).take (find_longest_match a b).2.2 =
      (b.drop (find_longest_match a b).2.1).take (find_longest_match a b).2.2 :=
  extLen_take _ _ _ (flm_le a b)

theorem flmCands_nil_left (b : List Char) : flmCands [] b = [] := by
  simp [flmCands]

theorem flm_nil_left (b : List Char) : find_longest_match [] b = (0, 0, 0) := by
  rw [find_longest_match, flmCands_nil_left]
  rfl

/- On two copies of a nonempty list the best block is the whole list at the
   origin. -/
theorem flm_self (a : List Char) (ha : a ≠ []) : find_longest_match a a = (0, 0, a.length) := by
  have hlen : 0 < a.length := List.length_pos.mpr ha
  have hge : a.length ≤ (find_longest_match a a).2.2 := by
    have := flm_ge a a 0 0 hlen hlen
    rwa [List.drop_zero, extLen_self] at this
  have hle := flm_le a a
  have h1 := extLen_le_left (a.drop (find_longest_match a a).1)
    (a.drop (find_longest_match a a).2.1)
  have h2 := extLen_le_right (a.drop (find_longest_match a a).1)
    (a.drop (find_longest_match a a).2.1)
  rw [List.length_drop] at h1 h2
  rcases hm : find_longest_match a a with ⟨i, j, k⟩
  rw [hm] at hge hle h1 h2
  dsimp only at hge hle h1 h2
  have hk : k = a.length := by omega
  have hi : i = 0 := by omega
  have hj : j = 0 := by omega
  rw [hi, hj, hk]

theorem matching_total_nil_left : ∀ (fuel : Nat) (b : List Char), matching_total fuel [] b = 0
  | 0, _ => rfl
  | fuel + 1, b => by simp [matching_total, flm_nil_left]

/- M never exceeds the length of either sequence. -/
theorem matching_total_le : ∀ (fuel : Nat) (a b : List Char),
    matching_total fuel a b ≤ min a.length b.length
  | 0, _, _ => Nat.zero_le _
  | fuel + 1, a, b => by
    simp only [matching_total]
    split
    · exact Nat.zero_le _
    · next hk =>
      have hb := flm_bounds a b hk
      have ih1 := matching_total_le fuel (a.take (find_longest_match a b).1)
        (b.take (find_longest_match a b).2.1)
      have ih2 := matching_total_le fuel
        (a.drop ((find_longest_match a b).1 + (find_longest_match a b).2.2))
        (b.drop ((find_longest_match a b).2.1 + (find_longest_match a b).2.2))
      rw [List.length_take, List.length_take] at ih1
      rw [List.length_drop, List.length_drop] at ih2
      omega

/- On two copies of the same list all characters are matched. -/
theorem matching_total_self : ∀ (fuel : Nat) (a : List Char),
    matching_total (fuel + 1) a a = a.length := by
  intro fuel a
  rcases eq_or_ne a [] with ha | ha
  · subst ha; rw [matching_total_nil_left]; rfl
  · have hlen : a.length ≠ 0 := fun h => ha (List.eq_nil_of_length_eq_zero h)
    simp only [matching_total, flm_self a ha]
    rw [if_neg hlen, List.take_zero, Nat.zero_add, List.drop_length, matching_total_nil_left]
    omega

/- When every character of both sequences is matched the sequences are equal
   (2M = len a + len b forces a = b). -/
theorem matching_total_full : ∀ (fuel : Nat) (a b : List Char),
    2 * matching_total fuel a b = a.length + b.length → a = b
  | 0, a, b, h => by
    rw [matching_total] at h
    have ha : a = [] := List.eq_nil_of_length_eq_zero (by omega)
    have hb : b = [] := List.eq_nil_of_length_eq_zero (by omega)
    rw [ha, hb]
  | fuel + 1, a, b, h => by
    simp only [matching_total] at h
    split at h
    · have ha : a = [] := List.eq_nil_of_length_eq_zero (by omega)
      have hb : b = [] := List.eq_nil_of_length_eq_zero (by omega)
      rw [ha, hb]
    · next hk =>
      set i := (find_longest_match a b).1 with hidef
      set j := (find_longest_match a b).2.1 with hjdef
      set k := (find_longest_match a b).2.2 with hkdef
      have hbd := flm_bounds a b hk
      have le1 := matching_total_le fuel (a.take i) (b.take j)
      have le2 := matching_total_le fuel (a.drop (i + k)) (b.drop (j + k))
      rw [List.length_take, List.length_take] at le1
      rw [List.length_drop, List.length_drop] at le2
      have e1 : 2 * matching_total fuel (a.take i) (b.take j) =
          (a.take i).length + (b.take j).length := by
        rw [List.length_take, List.length_take]; omega
      have e2 : 2 * matching_total fuel (a.drop (i + k)) (b.drop (j + k)) =
          (a.drop (i + k)).length + (b.drop (j + k)).length := by
        rw [List.length_drop, List.length_drop]; omega
      have hL := matching_total_full fuel _ _ e1
      have hR := matching_total_full fuel _ _ e2
      have hM := flm_block_eq a b
      rw [← hidef, ← hjdef, ← hkdef] at hM
      calc a = a.take i ++ ((a.drop i).take k ++ (a.drop i).drop k) := by
              rw [List.take_append_drop, List.take_append_drop]
        _ = b.take j ++ ((b.drop j).take k ++ (b.drop j).drop k) := by
              rw [List.drop_drop, List.drop_drop, hL, hM, hR]
        _ = b := by rw [List.take_append_drop, List.take_append_drop]

theorem matchTotal_le (a b : List Char) : matchTotal a b ≤ min a.length b.length :=
  matching_total_le _ a b

theorem matchTotal_self (a : List Char) : matchTotal a a = a.length :=
  matching_total_self a.length a

theorem matchTotal_full (a b : List Char) (h : 2 * matchTotal a b = a.length + b.length) :
    a = b :=
  matching_total_full _ a b h

/- The ratio of a string with itself is 1 (exact match identity). -/
theorem ratioQ_self (a : String) : ratioQ a a = 1 := by
  rw [ratioQ]
  split
  · rfl
  · next h =>
    have hla : 0 < a.data.length := by omega
    rw [matchTotal_self]
    rw [div_eq_one_iff_eq]
    · ring
    · have : (0 : ℚ) < (a.data.length : ℚ) + (a.data.length : ℚ) := by
        exact_mod_cast Nat.add_pos_left hla a.data.length
      exact ne_of_gt this

/- Ratios never exceed 1. -/
theorem ratioQ_le_one (a b : String) : ratioQ a b ≤ 1 := by
  rw [ratioQ]
  split
  · exact le_refl 1
  · next h =>
    rw [div_le_one]
    · have hle := matchTotal_le a.data b.data
      have : 2 * matchTotal a.data b.data ≤ a.data.length + b.data.length := by omega
      exact_mod_cast this
    · have : 0 < a.data.length + b.data.length := by omega
      exact_mod_cast this

/- Only an exact copy of the query reaches ratio 1. -/
theorem ratioQ_eq_one {a b : String} (h : ratioQ a b = 1) : a = b := by
  rw [ratioQ] at h
  split at h
  · next h0 =>
    have ha : a.data = [] := List.eq_nil_of_length_eq_zero (by omega)
    have hb : b.data = [] := List.eq_nil_of_length_eq_zero (by omega)
    cases a; cases b
    simp_all
  · next h0 =>
    have hpos : (0 : ℚ) < (a.data.length : ℚ) + (b.data.length : ℚ) := by
      have : 0 < a.data.length + b.data.length := by omega
      exact_mod_cast this
    rw [div_eq_one_iff_eq (ne_of_gt hpos)] at h
    have hnat : 2 * matchTotal a.data b.data = a.data.length + b.data.length := by
      exact_mod_cast h
    have hd := matchTotal_full a.data b.data hnat
    cases a; cases b
    simp_all

/- The nlargest tuple order is total and transitive, so insertion sort
   produces a list sorted with respect to it. -/
instance : IsTotal (ℚ × String) pairGe :=
  ⟨fun x y => by
    rcases lt_trichotomy x.1 y.1 with h | h | h
    · exact Or.inr (Or.inl h)
    · rcases le_total x.2 y.2 with hs | hs
      · exact Or.inr (Or.inr ⟨h.symm, hs⟩)
      · exact Or.inl (Or.inr ⟨h, hs⟩)
    · exact Or.inl (Or.inl h)⟩

instance : IsTrans (ℚ × String) pairGe :=
  ⟨fun a b c hab hbc => by
    rcases hab with h1 | ⟨h1, hs1⟩ <;> rcases hbc with h2 | ⟨h2, hs2⟩
    · exact Or.inl (lt_trans h2 h1)
    · exact Or.inl (h2 ▸ h1)
    · exact Or.inl (h1 ▸ h2)
    · exact Or.inr ⟨h1.trans h2, hs2.trans hs1⟩⟩

instance : IsTotal (Nat × ℚ) scoreGe := ⟨fun a b => le_total b.2 a.2⟩

instance : IsTrans (Nat × ℚ) scoreGe := ⟨fun _ _ _ h1 h2 => le_trans h2 h1⟩

/- Tie order: when two ranked entries carry the same score, the one with the
   smaller catalog index comes first. -/
def tieLt (x y : Nat × ℚ) : Prop := x.2 = y.2 → x.1 < y.1

/- Stability of the stable descending sort: inserting an element that is
   tie-before every element of an already tie-ordered list keeps the list
   tie-ordered, because the insertion point only skips strictly larger
   scores. -/
theorem pairwise_tieLt_orderedInsert (x : Nat × ℚ) :
    ∀ L : List (Nat × ℚ), L.Pairwise tieLt → (∀ y ∈ L, tieLt x y) →
      (List.orderedInsert scoreGe x L).Pairwise tieLt
  | [], _, _ => List.pairwise_singleton tieLt x
  | b :: L, hp, hx => by
    rw [List.orderedInsert]
    split
    · exact List.Pairwise.cons hx hp
    · next hnot =>
      rcases List.pairwise_cons.mp hp with ⟨hbL, hpL⟩
      refine List.pairwise_cons.mpr ⟨?_, ?_⟩
      · intro z hz
        rcases (List.mem_orderedInsert scoreGe).mp hz with hz | hz
        · subst hz
          intro he
          exact absurd (le_of_eq he) hnot
        · exact hbL z hz
      · exact pairwise_tieLt_orderedInsert x L hpL fun y hy => hx y (List.mem_cons_of_mem b hy)

theorem pairwise_tieLt_insertionSort :
    ∀ L : List (Nat × ℚ), L.Pairwise tieLt → (List.insertionSort scoreGe L).Pairwise tieLt
  | [], _ => List.Pairwise.nil
  | x :: L, hp => by
    rw [List.insertionSort]
    rcases List.pairwise_cons.mp hp with ⟨hxL, hpL⟩
    refine pairwise_tieLt_orderedInsert x _ (pairwise_tieLt_insertionSort L hpL) ?_
    intro y hy
    exact hxL y ((List.mem_insertionSort scoreGe).mp hy)

/- Basic facts about the embedded Python enumerate. -/
theorem length_enumerateFrom : ∀ (n : Nat) (l : List α), (enumerateFrom n l).length = l.length
  | _, [] => rfl
  | n, _ :: l => by rw [enumerateFrom, List.length_cons, List.length_cons,
      length_enumerateFrom (n + 1) l]

theorem fst_ge_of_mem_enumerateFrom :
    ∀ {p : Nat × α} (n : Nat) (l : List α), p ∈ enumerateFrom n l → n ≤ p.1
  | _, _, [], h => absurd h (List.not_mem_nil _)
  | p, n, a :: l, h => by
    rw [enumerateFrom] at h
    rcases List.mem_cons.mp h with h | h
    · subst h; exact Nat.le_refl n
    · exact Nat.le_of_lt (fst_ge_of_mem_enumerateFrom (n + 1) l h)

theorem fst_lt_of_mem_enumerateFrom :
    ∀ {p : Nat × α} (n : Nat) (l : List α), p ∈ enumerateFrom n l → p.1 < n + l.length
  | _, _, [], h => absurd h (List.not_mem_nil _)
  | p, n, a :: l, h => by
    rw [enumerateFrom] at h
    rw [List.length_cons]
    rcases List.mem_cons.mp h with h | h
    · subst h; omega
    · have := fst_lt_of_mem_enumerateFrom (n + 1) l h
      omega

theorem pairwise_fst_lt_enumerateFrom :
    ∀ (n : Nat) (l : List α), (enumerateFrom n l).Pairwise fun x y => x.1 < y.1
  | _, [] => List.Pairwise.nil
  | n, a :: l => by
    rw [enumerateFrom]
    refine List.pairwise_cons.mpr ⟨?_, pairwise_fst_lt_enumerateFrom (n + 1) l⟩
    intro p hp
    have := fst_ge_of_mem_enumerateFrom (n + 1) l hp
    omega

/- Python indexing raises exactly for indices outside [-len, len). -/
theorem pyNth_eq_none_iff (l : List α) (i : Int) :
    pyNth l i = none ↔ ((l.length : Int) ≤ i ∨ i < -(l.length : Int)) := by
  rw [pyNth]
  split
  · next hneg =>
    split
    · next hpos =>
      rw [List.get?_eq_none]
      omega
    · next hpos => simp only [true_iff]; omega
  · next hneg =>
    split
    · next hpos =>
      rw [List.get?_eq_none]
      omega
    · next hpos => simp only [true_iff]; omega

theorem pyNth_mem {l : List α} {i : Int} {x : α} (h : pyNth l i = some x) : x ∈ l := by
  rw [pyNth] at h
  split at h <;> split at h <;>
    first
      | exact List.get?_mem h
      | exact absurd h (by simp)

/- Every pair in the scored candidate list of get_close_matches carries the
   ratio of its own title against the query. -/
theorem fst_eq_ratio_of_mem_scored {word : String} {poss : List String} {cutoff : ℚ}
    {p : ℚ × String}
    (h : p ∈ (poss.filter fun x => decide (cutoff ≤ ratioQ x word)).map
      fun x => (ratioQ x word, x)) :
    p.1 = ratioQ p.2 word := by
  rcases List.mem_map.mp h with ⟨x, _, hpx⟩
  cases hpx
  rfl

/- The enumerate output is strictly increasing in its first component, hence
   tie-ordered. -/
theorem pairwise_tieLt_pyEnumerate (l : List ℚ) : (pyEnumerate l).Pairwise tieLt := by
  refine (pairwise_fst_lt_enumerateFrom 0 l).imp ?_
  intro a b hlt _
  exact hlt

/- Claim theorems. -/

/-- C1: the spec claims recommend never outputs itemIndex because the self
entry is removed by an identity check; the code instead removes rank 0 of the
stable descending sort (slice [1:topN+1]). With the similarity matrix
[[1,1],[1,1]] (a duplicate maximal score), itemIndex 1 and topN 1, the stable
sort leaves (0,1) at rank 0, the slice removes it, and the output is [(1,1)],
which contains itemIndex 1: the claimed guarantee fails exactly in the
duplicate-maximal-score situation the claim singles out. -/
theorem c1_positional_drop_keeps_self :
    recommend [[1, 1], [1, 1]] 1 1 = some [(1, 1)] := by
  with_unfolding_all decide

/-- C3 counterexample: the claim says recommend fails with IndexOutOfRange for
every itemIndex < 0, but Python indexing wraps negative indices, so
similarity[-1] is the last row and recommend (-1) succeeds. -/
theorem c3_counterexample :
    (-1 : Int) < 0 ∧ recommend [[1, 0], [0, 1]] (-1) 1 = some [(0, 0)] := by
  constructor
  · decide
  · with_unfolding_all decide

/-- C3 amended: recommend fails (IndexError) exactly when itemIndex >= N or
itemIndex < -N; in particular it never fails for itemIndex in [0,N), and for
itemIndex in [-N,0) it silently uses the wrapped row N + itemIndex. -/
theorem c3_index_error_iff :
    ∀ (similarity : List (List ℚ)) (itemIndex : Int) (topN : Nat),
      recommend similarity itemIndex topN = none ↔
        ((similarity.length : Int) ≤ itemIndex ∨ itemIndex < -(similarity.length : Int)) := by
  intro sim idx topN
  rw [recommend, Option.map_eq_none', pyNth_eq_none_iff]

/-- C3 amended witness: at size 1 and index 5 the lookup fails. -/
theorem c3_index_error_iff_witness : recommend [[(1 : ℚ)]] 5 1 = none :=
  (c3_index_error_iff [[(1 : ℚ)]] 5 1).mpr (by decide)

/-- C4: the output of recommend is sorted descending by score, and entries
with equal scores keep ascending catalog index order (the Python sort with
key x[1] and reverse=True is stable and the enumerate order is the index
order). -/
theorem c4_recommend_sorted_descending_stable :
    ∀ (similarity : List (List ℚ)) (itemIndex : Int) (topN : Nat) (out : List (Nat × ℚ)),
      recommend similarity itemIndex topN = some out →
      out.Pairwise fun x y => y.2 ≤ x.2 ∧ (x.2 = y.2 → x.1 < y.1) := by
  intro sim idx topN out h
  rcases Option.map_eq_some'.mp h with ⟨row, _, hout⟩
  subst hout
  have hsorted : (sorted_similar_movies row).Pairwise scoreGe :=
    List.sorted_insertionSort scoreGe (pyEnumerate row)
  have hties : (sorted_similar_movies row).Pairwise tieLt :=
    pairwise_tieLt_insertionSort (pyEnumerate row) (pairwise_tieLt_pyEnumerate row)
  have hsub : List.Sublist (((sorted_similar_movies row).drop 1).take topN)
      (sorted_similar_movies row) :=
    (List.take_sublist _ _).trans (List.drop_sublist _ _)
  exact List.Pairwise.sublist hsub (hsorted.and hties)

/-- C4 witness: a concrete run of recommend satisfies the order property. -/
theorem c4_witness :
    ([((1 : Nat), (0 : ℚ))] : List (Nat × ℚ)).Pairwise
      (fun x y => y.2 ≤ x.2 ∧ (x.2 = y.2 → x.1 < y.1)) :=
  c4_recommend_sorted_descending_stable [[1, 0], [0, 1]] 0 1 [(1, 0)]
    (by with_unfolding_all decide)

/-- C5: for a square N by N similarity matrix, every successful
recommend itemIndex topN returns exactly min topN (N-1) pairs: the sorted row
has N entries, the slice [1:topN+1] drops one and takes at most topN. -/
theorem c5_recommend_length :
    ∀ (similarity : List (List ℚ)) (itemIndex : Int) (topN : Nat) (out : List (Nat × ℚ)),
      (∀ row ∈ similarity, row.length = similarity.length) →
      recommend similarity itemIndex topN = some out →
      out.length = min topN (similarity.length - 1) := by
  intro sim idx topN out hsq h
  rcases Option.map_eq_some'.mp h with ⟨row, hrow, hout⟩
  subst hout
  have hr : row.length = sim.length := hsq row (pyNth_mem hrow)
  simp only [recommendPairs, sorted_similar_movies, pyEnumerate, List.length_take,
    List.length_drop, List.length_insertionSort, length_enumerateFrom, hr]

/-- C5 witness: a 2 by 2 matrix with topN 1 yields min 1 1 = 1 pair. -/
theorem c5_witness : ([((1 : Nat), (0 : ℚ))] : List (Nat × ℚ)).length = min 1 1 :=
  c5_recommend_length [[1, 0], [0, 1]] 0 1 [(1, 0)] (by decide)
    (by with_unfolding_all decide)

/-- C10: every index in the output of recommend comes from enumerating a row
of the square similarity matrix, so it is smaller than the catalog size N,
and looking it up in any catalog column of length N succeeds. -/
theorem c10_recommend_indices_valid :
    ∀ (similarity : List (List ℚ)) (itemIndex : Int) (topN : Nat) (out : List (Nat × ℚ))
      (p : Nat × ℚ) (titles : List String),
      (∀ row ∈ similarity, row.length = similarity.length) →
      recommend similarity itemIndex topN = some out →
      p ∈ out → titles.length = similarity.length →
      p.1 < similarity.length ∧ (titles.get? p.1).isSome := by
  intro sim idx topN out p titles hsq h hp ht
  rcases Option.map_eq_some'.mp h with ⟨row, hrow, hout⟩
  subst hout
  have hr : row.length = sim.length := hsq row (pyNth_mem hrow)
  have hsub : List.Sublist (((sorted_similar_movies row).drop 1).take topN)
      (sorted_similar_movies row) :=
    (List.take_sublist _ _).trans (List.drop_sublist _ _)
  have hmem : p ∈ sorted_similar_movies row := hsub.subset hp
  have henum : p ∈ pyEnumerate row := (List.mem_insertionSort scoreGe).mp hmem
  have hlt : p.1 < 0 + row.length := fst_lt_of_mem_enumerateFrom 0 row henum
  constructor
  · omega
  · have hne : ¬titles.get? p.1 = none := by
      rw [List.get?_eq_none]
      omega
    exact Option.ne_none_iff_isSome.mp hne

/-- C10 witness: the output index 1 of a concrete run is a valid position in
a catalog of two titles. -/
theorem c10_witness : (1 : Nat) < 2 ∧ ((["Iron Man", "Avatar"] : List String).get? 1).isSome :=
  c10_recommend_indices_valid [[1, 0], [0, 1]] 0 1 [(1, 0)] (1, 0) ["Iron Man", "Avatar"]
    (by decide) (by with_unfolding_all decide) (by decide) (by decide)

/-- C2 counterexample: the claim says equal-ratio candidates are ranked in
original candidate order, predicting that find_close_match of the query "ab"
against the candidates ["a", "b"] (both of ratio 2/3) starts with "a"; the
nlargest tuple comparison of difflib ranks the lexicographically larger title
"b" first instead. -/
theorem c2_counterexample :
    ratioQ "a" "ab" = ratioQ "b" "ab" ∧
      get_close_matches "ab" ["a", "b"] 1 (3/5) = ["b"] := by
  constructor
  · with_unfolding_all decide
  · with_unfolding_all decide

/-- C2 amended: the candidates clearing the cutoff are sorted descending by
ratio, but ties are broken by the candidate title in descending lexicographic
order (the Python tuple comparison inside heapq.nlargest), not by original
candidate order; original order only separates fully identical entries, where
the distinction is unobservable. -/
theorem c2_sorted_by_ratio_then_title :
    ∀ (word : String) (possibilities : List String) (n : Nat) (cutoff : ℚ),
      (get_close_matches word possibilities n cutoff).Pairwise fun x y =>
        ratioQ y word < ratioQ x word ∨ (ratioQ x word = ratioQ y word ∧ y ≤ x) := by
  intro word poss n cutoff
  simp only [get_close_matches]
  rw [List.pairwise_map]
  have hs : (List.insertionSort pairGe
      ((poss.filter fun x => decide (cutoff ≤ ratioQ x word)).map
        fun x => (ratioQ x word, x))).Pairwise pairGe :=
    List.sorted_insertionSort pairGe _
  have htake := List.Pairwise.sublist (List.take_sublist n _) hs
  refine htake.imp_of_mem ?_
  intro p q hp hq hpq
  have hp1 : p.1 = ratioQ p.2 word :=
    fst_eq_ratio_of_mem_scored ((List.mem_insertionSort pairGe).mp
      ((List.take_sublist n _).subset hp))
  have hq1 : q.1 = ratioQ q.2 word :=
    fst_eq_ratio_of_mem_scored ((List.mem_insertionSort pairGe).mp
      ((List.take_sublist n _).subset hq))
  rw [← hp1, ← hq1]
  exact hpq

/-- C2 amended witness: a concrete sorted output. -/
theorem c2_sorted_witness :
    (get_close_matches "ab" ["a", "b"] 2 (3/5)).Pairwise fun x y =>
      ratioQ y "ab" < ratioQ x "ab" ∨ (ratioQ x "ab" = ratioQ y "ab" ∧ y ≤ x) :=
  c2_sorted_by_ratio_then_title "ab" ["a", "b"] 2 (3/5)

/-- C6: findClosestTitle never fails. With cutoff 0.6 and maxResults 1 it
returns the empty list exactly when no candidate reaches ratio 0.6 (a normal
no-match value, since the function is total), and returns exactly one title
whenever some candidate reaches ratio 0.6. Stated for queries shorter than
200 characters, where the embedded junk-free matcher coincides with difflib. -/
theorem c6_no_match_empty_or_unique :
    ∀ (word : String) (possibilities : List String), word.length < 200 →
      ((∀ x ∈ possibilities, ratioQ x word < 3/5) →
        get_close_matches word possibilities 1 (3/5) = []) ∧
      ((∃ x ∈ possibilities, 3/5 ≤ ratioQ x word) →
        (get_close_matches word possibilities 1 (3/5)).length = 1) := by
  intro word poss _
  constructor
  · intro hall
    have hf : (poss.filter fun x => decide ((3 : ℚ)/5 ≤ ratioQ x word)) = [] := by
      rw [List.filter_eq_nil_iff]
      intro a ha
      simp only [decide_eq_true_eq]
      exact not_le.mpr (hall a ha)
    simp only [get_close_matches, hf]
    rfl
  · intro hex
    rcases hex with ⟨x, hx, hr⟩
    have hmem : x ∈ poss.filter fun y => decide ((3 : ℚ)/5 ≤ ratioQ y word) :=
      List.mem_filter.mpr ⟨hx, by simpa using hr⟩
    have hpos : 0 < (poss.filter fun y => decide ((3 : ℚ)/5 ≤ ratioQ y word)).length :=
      List.length_pos.mpr (List.ne_nil_of_mem hmem)
    simp only [get_close_matches, List.length_map, List.length_take,
      List.length_insertionSort]
    omega

set_option maxRecDepth 8192 in
/-- C6 witness: a query with no close candidate yields the empty list, and a
query with an exact candidate yields exactly one title. -/
theorem c6_witness :
    get_close_matches "zz" ["Iron Man"] 1 (3/5) = [] ∧
      (get_close_matches "Avatar" ["Avatar", "Up"] 1 (3/5)).length = 1 := by
  constructor
  · exact (c6_no_match_empty_or_unique "zz" ["Iron Man"] (by decide)).1
      (by with_unfolding_all decide)
  · exact (c6_no_match_empty_or_unique "Avatar" ["Avatar", "Up"] (by decide)).2
      ⟨"Avatar", by decide, by with_unfolding_all decide⟩

/-- C7: a title verbatim present among the candidates has ratio 1 against
itself, clears every cutoff at most 1, and is ranked first: the head of the
result is that exact title (only exact copies of the query reach ratio 1, so
the tuple tie-break cannot displace it). Stated for queries shorter than 200
characters, where the embedded junk-free matcher coincides with difflib, and
for the valid difflib parameter range (positive maxResults, cutoff below 1). -/
theorem c7_exact_match_ratio_one_first :
    ∀ (word : String) (possibilities : List String) (n : Nat) (cutoff : ℚ),
      word.length < 200 → word ∈ possibilities → cutoff ≤ 1 → 1 ≤ n →
      (get_close_matches word possibilities n cutoff).head? = some word ∧
        ratioQ word word = 1 := by
  intro word poss n cutoff _ hmem hcut hn
  have hself := ratioQ_self word
  refine ⟨?_, hself⟩
  simp only [get_close_matches]
  have hmemR : ((1 : ℚ), word) ∈ (poss.filter fun x => decide (cutoff ≤ ratioQ x word)).map
      (fun x => (ratioQ x word, x)) := by
    refine List.mem_map.mpr ⟨word, ?_, ?_⟩
    · exact List.mem_filter.mpr ⟨hmem, by simp [hself, hcut]⟩
    · rw [hself]
  have hmemS : ((1 : ℚ), word) ∈ List.insertionSort pairGe
      ((poss.filter fun x => decide (cutoff ≤ ratioQ x word)).map
        fun x => (ratioQ x word, x)) :=
    (List.mem_insertionSort pairGe).mpr hmemR
  have hsorted := List.sorted_insertionSort pairGe
    ((poss.filter fun x => decide (cutoff ≤ ratioQ x word)).map
      fun x => (ratioQ x word, x))
  obtain ⟨hd, tl, hSc⟩ := List.exists_cons_of_ne_nil (List.ne_nil_of_mem hmemS)
  rw [hSc] at hmemS hsorted
  have hhd : hd = ((1 : ℚ), word) := by
    rcases List.mem_cons.mp hmemS with he | ht
    · exact he.symm
    · have hg : pairGe hd ((1 : ℚ), word) := (List.pairwise_cons.mp hsorted).1 _ ht
      have hhdR : hd ∈ (poss.filter fun x => decide (cutoff ≤ ratioQ x word)).map
          (fun x => (ratioQ x word, x)) := by
        refine (List.mem_insertionSort pairGe).mp ?_
        rw [hSc]
        exact List.mem_cons_self hd tl
      have hhd1 : hd.1 = ratioQ hd.2 word := fst_eq_ratio_of_mem_scored hhdR
      rcases hg with hlt | ⟨heq, _⟩
      · have hle : hd.1 ≤ 1 := hhd1 ▸ ratioQ_le_one hd.2 word
        exact absurd hlt (not_lt.mpr hle)
      · have h1 : ratioQ hd.2 word = 1 := by rw [← hhd1]; exact heq
        exact Prod.ext (by exact heq) (ratioQ_eq_one h1)
  rcases n with _ | m
  · omega
  · rw [hSc, List.take_succ_cons, List.map_cons, List.head?_cons, hhd]

set_option maxRecDepth 8192 in
/-- C7 witness: the exact candidate "Avatar" is returned first with ratio 1. -/
theorem c7_witness :
    (get_close_matches "Avatar" ["Iron Man", "Avatar"] 1 (3/5)).head? = some "Avatar" ∧
      ratioQ "Avatar" "Avatar" = 1 :=
  c7_exact_match_ratio_one_first "Avatar" ["Iron Man", "Avatar"] 1 (3/5)
    (by decide) (by decide) (by with_unfolding_all decide) (by decide)

/- The head of the filtered index column is the first matching row. -/
theorem head?_filter_map_eq_find? (p : Nat × String → Bool) :
    ∀ rows : List (Nat × String),
      ((rows.filter p).map Prod.fst).head? = (rows.find? p).map Prod.fst
  | [] => rfl
  | r :: rows => by
    cases hpr : p r
    · have hn : ¬p r = true := by simp [hpr]
      rw [List.filter_cons_of_neg hn, List.find?_cons_of_neg rows hn]
      exact head?_filter_map_eq_find? p rows
    · rw [List.filter_cons_of_pos hpr, List.find?_cons_of_pos rows hpr]
      rfl

/-- C8: title-to-index resolution returns the index column value of the first
row (in load order) whose title is exactly, case-sensitively equal to the
requested title (first match wins among duplicates), and returns the failure
value exactly when no row matches. -/
theorem c8_first_title_match :
    ∀ (rows : List (Nat × String)) (title : String),
      findIndexByTitle rows title = (rows.find? fun r => r.2 == title).map Prod.fst ∧
        (findIndexByTitle rows title = none ↔ ∀ r ∈ rows, ¬r.2 = title) := by
  intro rows title
  have h1 := head?_filter_map_eq_find? (fun r => r.2 == title) rows
  constructor
  · exact h1
  · rw [findIndexByTitle, h1, Option.map_eq_none', List.find?_eq_none]
    simp only [beq_iff_eq]

/-- C8 witness: with duplicate titles the earliest row wins. -/
theorem c8_witness : findIndexByTitle [(0, "x"), (7, "y"), (2, "y")] "y" = some 7 :=
  (c8_first_title_match [(0, "x"), (7, "y"), (2, "y")] "y").1.trans (by decide)

/-- C9: provider failures never abort a request: the poster lookup is a total
function returning a placeholder URL on a missing API key and on any
exception of the HTTP request, and a placeholder on missing data; the details
lookup returns the absence value none in all of those situations instead of
failing. The recommendation list itself is computed by recommend, which does
not consume any provider outcome. -/
theorem c9_provider_failures_never_abort :
    ∀ (apiKey : String) (outcome : TMDBOutcome) (e : String),
      (get_movie_poster apiKey (Except.error e) = noKeyPoster ∨
        get_movie_poster apiKey (Except.error e) = errorLoadingPoster) ∧
      get_movie_poster "" outcome = noKeyPoster ∧
      (get_movie_poster apiKey (Except.ok ⟨[]⟩) = noKeyPoster ∨
        get_movie_poster apiKey (Except.ok ⟨[]⟩) = noPosterAvailable) ∧
      get_movie_details apiKey (Except.error e) = none ∧
      get_movie_details "" outcome = none := by
  intro apiKey outcome e
  by_cases hk : apiKey = ""
  · subst hk
    exact ⟨Or.inl (by simp [get_movie_poster]), by simp [get_movie_poster],
      Or.inl (by simp [get_movie_poster]), by simp [get_movie_details],
      by simp [get_movie_details]⟩
  · exact ⟨Or.inr (by simp [get_movie_poster, hk]), by simp [get_movie_poster],
      Or.inr (by simp [get_movie_poster, hk]), by simp [get_movie_details, hk],
      by simp [get_movie_details]⟩

end CineMatch
